import Mathlib

/-!
Shallow embedding of the graph-algorithms core of the repository
(`src/src/main.cpp`, whose second part is the header `graph_algorithms.h`):
the weighted graph over adjacency lists, the two single-source shortest-path
algorithms (`dijkstra`, `bellman_ford`), path reconstruction, random graph
generation and the benchmark comparator.

Modelling conventions:
- C++ `Vertex` (`int`) becomes `Int`; C++ `Weight` (`double`) becomes `ℚ`,
  with the IEEE infinity sentinel `INF` represented as `none : Option ℚ`.
- `DynamicArray<T>` and `LinkedList<T>` (from `LibrarySequence`, not part of
  the sources given) become `List`; `Append` appends at the tail, `Get`/`Set`
  are index accesses.  Out-of-range `Get`/`Set` (undefined in C++) are
  modelled benignly (`dGet` returns the supplied default, `dSet` is a no-op);
  every access the algorithms actually make is in range.
- The unbounded C++ loops (`dijkstra`'s queue loop, `restore_path`'s parent
  walk) become fuel-indexed recursions with fuel large enough to cover every
  terminating execution of the C++ loop; fuel exhaustion corresponds to a
  C++ execution that never terminates (or runs into out-of-bounds accesses).
- Exceptions (`std::out_of_range`, `std::invalid_argument`) become
  `Except String`.
-/

abbrev Vertex := Int
abbrev Weight := ℚ

structure Edge where
  dst : Vertex      -- the C++ field is named `to`, a reserved token in Lean
  weight : Weight
deriving DecidableEq, Repr

/-- The graph of `graph_algorithms.h`: a directedness flag and one adjacency
list per vertex `0 .. n-1` (the C++ object stores `n_` alongside the array of
`n_` linked lists; here the list length is the vertex count). -/
structure Graph where
  directed : Bool
  adj : List (List Edge)
deriving DecidableEq, Repr

def Graph.vertex_count (g : Graph) : Nat := g.adj.length

/-- `Graph(n, directed)`: `n` empty adjacency lists. -/
def mkGraph (n : Nat) (directed : Bool) : Graph :=
  ⟨directed, List.replicate n []⟩

/-- Append an edge at the tail of the `i`-th adjacency list
(`adj_[i].Append(...)`). -/
def appendAt (adj : List (List Edge)) (i : Nat) (e : Edge) : List (List Edge) :=
  adj.set i (adj.getD i [] ++ [e])

/-- `Graph::add_edge`: validates both endpoints against `[0, n)` (throwing
`std::out_of_range` otherwise), appends `(v, w)` to `u`'s list, and for an
undirected graph with `u ≠ v` also appends the mirror entry `(u, w)` to
`v`'s list. -/
def Graph.add_edge (g : Graph) (u v : Vertex) (w : Weight) : Except String Graph :=
  if u < 0 ∨ v < 0 ∨ (g.vertex_count : Int) ≤ u ∨ (g.vertex_count : Int) ≤ v then
    .error "invalid vertex numbers"
  else
    let adj1 := appendAt g.adj u.toNat ⟨v, w⟩
    let adj2 := if ¬g.directed = true ∧ u ≠ v then appendAt adj1 v.toNat ⟨u, w⟩ else adj1
    .ok ⟨g.directed, adj2⟩

/-- Total number of directed adjacency entries (the sum the C++
`edge_count` accumulates before the undirected halving). -/
def Graph.totalEntries (g : Graph) : Nat :=
  (g.adj.map List.length).sum

/-- `Graph::edge_count`: sum of all adjacency-list lengths, halved (integer
division) for an undirected graph. -/
def Graph.edge_count (g : Graph) : Nat :=
  if g.directed then g.totalEntries else g.totalEntries / 2

/-- `Graph::neighbors`. -/
def Graph.neighbors (g : Graph) (u : Vertex) : List Edge :=
  g.adj.getD u.toNat []

/-- `DynamicArray::Get` with an `Int` index; in-range reads return the stored
element, out-of-range reads (undefined behaviour in the C++ sources, whose
`DynamicArray` implementation is not included) return the default. -/
def dGet {α : Type} (l : List α) (i : Int) (d : α) : α :=
  if 0 ≤ i ∧ i < (l.length : Int) then l.getD i.toNat d else d

def dSet {α : Type} (l : List α) (i : Int) (x : α) : List α :=
  if 0 ≤ i ∧ i < (l.length : Int) then l.set i.toNat x else l

/-- `ShortestPathResult`: distance vector (`none` is the `INF` sentinel),
parent vector (`-1` is the "none" sentinel) and the negative-cycle flag. -/
structure ShortestPathResult where
  dist : List (Option ℚ)
  parent : List Vertex
  has_negative_cycle : Bool
deriving DecidableEq, Repr

/-- `x < y` where `y` may be the `INF` sentinel: every finite value is below
`INF` (this is exactly how `nd < cur` behaves on IEEE doubles when `cur` may
be infinite). -/
def finiteLt (x : ℚ) (y : Option ℚ) : Bool :=
  match y with
  | none => true
  | some q => decide (x < q)

-- ------------------------------------------------------------
-- Bellman–Ford
-- ------------------------------------------------------------

structure BFEdge where
  u : Vertex
  v : Vertex
  w : Weight
deriving DecidableEq, Repr

/-- The edge list `bellman_ford` builds: all adjacency entries flattened in
vertex order, but only the first `edge_count()` of them are stored (the C++
code sizes the array with `m = g.edge_count()` and fills it under the guard
`idx < m`, so `idx` stops at `m`). -/
def Graph.bfEdges (g : Graph) : List BFEdge :=
  (((List.range g.vertex_count).map fun u =>
      (g.adj.getD u []).map fun e => BFEdge.mk (u : Int) e.dst e.weight).flatten).take
    g.edge_count

/-- One relaxation attempt of the Bellman–Ford inner loop; the `Bool`
component is the per-pass `changed` flag. -/
def bfRelaxEdge (st : List (Option ℚ) × List Vertex × Bool) (e : BFEdge) :
    List (Option ℚ) × List Vertex × Bool :=
  match dGet st.1 e.u none with
  | none => st
  | some du =>
    if finiteLt (du + e.w) (dGet st.1 e.v none) then
      (dSet st.1 e.v (some (du + e.w)), dSet st.2.1 e.v e.u, true)
    else st

/-- One full pass over the edge list, starting with `changed = false`. -/
def bfPass (edges : List BFEdge) (dp : List (Option ℚ) × List Vertex) :
    List (Option ℚ) × List Vertex × Bool :=
  edges.foldl bfRelaxEdge (dp.1, dp.2, false)

/-- Up to `n-1` passes with early exit when a pass changes nothing. -/
def bfLoop (edges : List BFEdge) : Nat → List (Option ℚ) × List Vertex →
    List (Option ℚ) × List Vertex
  | 0, dp => dp
  | k + 1, dp =>
    let r := bfPass edges dp
    if r.2.2 then bfLoop edges k (r.1, r.2.1) else (r.1, r.2.1)

/-- Can edge `e` still be relaxed at distance vector `dist`?  This is the
condition of both the relaxation and the final negative-cycle check. -/
def bfCanRelax (dist : List (Option ℚ)) (e : BFEdge) : Bool :=
  match dGet dist e.u none with
  | none => false
  | some du => finiteLt (du + e.w) (dGet dist e.v none)

/-- The distance/parent state after the main `n-1`-pass loop. -/
def bfMain (g : Graph) (source : Vertex) : List (Option ℚ) × List Vertex :=
  let n := g.vertex_count
  bfLoop g.bfEdges (n - 1)
    (dSet (List.replicate n (none : Option ℚ)) source (some 0),
     List.replicate n (-1 : Vertex))

/-- `bellman_ford`: all-`INF`, all-(-1) initialisation, early return on an
out-of-range source, edge-list construction, `n-1` relaxation passes with
early exit, and one extra pass that raises `has_negative_cycle` if any edge
is still relaxable. -/
def bellman_ford (g : Graph) (source : Vertex) : ShortestPathResult :=
  let n := g.vertex_count
  if source < 0 ∨ (n : Int) ≤ source then
    ⟨List.replicate n none, List.replicate n (-1), false⟩
  else
    let dp := bfMain g source
    ⟨dp.1, dp.2, g.bfEdges.any (bfCanRelax dp.1)⟩

-- ------------------------------------------------------------
-- Dijkstra
-- ------------------------------------------------------------

/-- Modelled from the spec: the priority queue behind `dijkstra` is
`HashTablePriorityQueue` from `Realization/IPriorityQueue/hash_priority_queue.h`,
whose implementation is not among the given sources; only the
`IPriorityQueue` contract is (`src/Interface/ipriority_queue.h`): `Enqueue`
inserts unconditionally, `Dequeue` removes and returns an element of minimum
priority, ties broken arbitrarily.  The model keeps the queue as a list of
(element, priority) pairs, appends on `Enqueue`, and `extractMin` removes the
first element holding the minimum priority. -/
def extractMin : List (Vertex × ℚ) → Option ((Vertex × ℚ) × List (Vertex × ℚ))
  | [] => none
  | x :: xs =>
    match extractMin xs with
    | none => some (x, [])
    | some (m, rest) => if x.2 ≤ m.2 then some (x, xs) else some (m, x :: rest)

structure DijkstraState where
  dist : List (Option ℚ)
  parent : List Vertex
  used : List Bool
  pq : List (Vertex × ℚ)
deriving DecidableEq, Repr

/-- The body of `dijkstra`'s inner edge loop for one outgoing edge
`e` of the dequeued vertex `u`: negative-weight edges are skipped outright
(`if (e.weight < 0) continue`), an infinite `dist[u]` skips, and an
improving finite candidate updates `dist`/`parent` and enqueues. -/
def dijkstraRelaxEdge (u : Vertex) (st : DijkstraState) (e : Edge) : DijkstraState :=
  if e.weight < 0 then st
  else
    match dGet st.dist u none with
    | none => st
    | some du =>
      let nd := du + e.weight
      if finiteLt nd (dGet st.dist e.dst none) then
        { st with
          dist := dSet st.dist e.dst (some nd)
          parent := dSet st.parent e.dst u
          pq := st.pq ++ [(e.dst, nd)] }
      else st

/-- `dijkstra`'s queue loop, fuel-indexed.  Each iteration dequeues once;
since a vertex's adjacency list is scanned at most once (the `used` check)
the total number of enqueues — hence of iterations — is bounded by
`1 + totalEntries`, so the fuel passed by `dijkstra` below always suffices. -/
def dijkstraLoop (g : Graph) : Nat → DijkstraState → DijkstraState
  | 0, st => st
  | fuel + 1, st =>
    match extractMin st.pq with
    | none => st
    | some (up, pq') =>
      let u := up.1
      let st' := { st with pq := pq' }
      if u < 0 ∨ (g.vertex_count : Int) ≤ u then dijkstraLoop g fuel st'
      else if dGet st'.used u false then dijkstraLoop g fuel st'
      else
        let stU := { st' with used := dSet st'.used u true }
        dijkstraLoop g fuel ((g.adj.getD u.toNat []).foldl (dijkstraRelaxEdge u) stU)

/-- `dijkstra`: all-`INF`, all-(-1) initialisation, early return on an out-of-range
source, then the lazy-deletion priority-queue loop.  The result's
`has_negative_cycle` flag keeps its default `false`. -/
def dijkstra (g : Graph) (source : Vertex) : ShortestPathResult :=
  let n := g.vertex_count
  if source < 0 ∨ (n : Int) ≤ source then
    ⟨List.replicate n none, List.replicate n (-1), false⟩
  else
    let st0 : DijkstraState :=
      ⟨dSet (List.replicate n (none : Option ℚ)) source (some 0),
       List.replicate n (-1), List.replicate n false, [(source, 0)]⟩
    let st := dijkstraLoop g (g.totalEntries + n + 1) st0
    ⟨st.dist, st.parent, false⟩

-- ------------------------------------------------------------
-- Path reconstruction
-- ------------------------------------------------------------

/-- One step of the backward parent walk: `v = parent.Get(v)`. -/
def parentStep (parent : List Vertex) (v : Vertex) : Vertex :=
  dGet parent v (-1)

/-- The backward walk sequence from `target`: `walkSeq p t 0 = t` and each
further element applies `parentStep`.  Note `parentStep` is absorbing at the
sentinel `-1`. -/
def walkSeq (parent : List Vertex) (target : Vertex) : Nat → Vertex
  | 0 => target
  | k + 1 => parentStep parent (walkSeq parent target k)

/-- The `for (v = target; v != -1; v = parent.Get(v))` loop of
`restore_path`, accumulating the visited vertices in `rev`; fuel-indexed
(fuel exhaustion, answered with `none`, corresponds to a C++ execution that
cycles forever or overruns the `rev` buffer). -/
def restorePathLoop (parent : List Vertex) (source : Vertex) :
    Nat → Vertex → List Vertex → Option (List Vertex)
  | 0, _, _ => none
  | fuel + 1, v, rev =>
    if v = -1 then some rev
    else
      let rev' := rev ++ [v]
      if v = source then some rev'
      else restorePathLoop parent source fuel (parentStep parent v) rev'

/-- `restore_path`: empty result for an out-of-range target or when the
pre-check `parent[target] = -1 ∧ target ≠ source` fires; otherwise walk
backward collecting vertices, and return the reversed walk when it ended at
`source`, the empty path otherwise. -/
def restore_path (source target : Vertex) (parent : List Vertex) : List Vertex :=
  let n := parent.length
  if target < 0 ∨ (n : Int) ≤ target then []
  else if dGet parent target (-1) = -1 ∧ target ≠ source then []
  else
    match restorePathLoop parent source (n + 1) target [] with
    | none => []
    | some rev =>
      if rev.length = 0 ∨ rev.getLast? ≠ some source then []
      else rev.reverse

-- ------------------------------------------------------------
-- Random graph generation
-- ------------------------------------------------------------

/-- `add_edge` totalised for callers that only ever pass in-range endpoints
(the generator and the built-in tests); on the impossible error case the
graph is returned unchanged. -/
def addEdgeD (g : Graph) (u v : Vertex) (w : Weight) : Graph :=
  match g.add_edge u v w with
  | .ok g' => g'
  | .error _ => g

/-- The ordered pairs `(u, v)` the generator's nested loops actually
consider: `u` and `v` range over `0 .. n-1`, skipping `v ≤ u` for undirected
graphs and the diagonal `u = v`. -/
def genPairs (n : Nat) (directed : Bool) : List (Nat × Nat) :=
  ((List.range n).map fun u =>
    ((List.range n).filter fun v =>
      !((!directed && decide (v ≤ u)) || decide (u = v))).map fun v => (u, v)).flatten

/-- One considered pair: draw a probability sample; when it is `≤ p`, draw a
weight sample and insert the edge.  The counters index the two oracle
streams. -/
def genStep (p : ℚ) (draws wdraws : Nat → ℚ) (st : Graph × Nat × Nat)
    (uv : Nat × Nat) : Graph × Nat × Nat :=
  if draws st.2.1 ≤ p then
    (addEdgeD st.1 (uv.1 : Int) (uv.2 : Int) (wdraws st.2.2),
     st.2.1 + 1, st.2.2 + 1)
  else (st.1, st.2.1 + 1, st.2.2)

/-- `generate_random_graph`.  Modelled from the spec for the randomness: the
C++ draws come from `std::uniform_real_distribution` over a `std::mt19937`;
here they are two oracle streams, `draws` for the probability samples
(`uniform_real_distribution<>(0.0, 1.0)` produces values in `[0, 1)`) and
`wdraws` for the weight samples (values in `[min_w, max_w)`), consumed in
program order.  `min_w`/`max_w` are validated by swapping when inverted; the
weight values themselves come from the oracle. -/
def generate_random_graph (n : Int) (p : ℚ) (min_w max_w : ℚ) (directed : Bool)
    (draws wdraws : Nat → ℚ) : Except String Graph :=
  if n < 0 then .error "negative vertex count"
  else if p < 0 ∨ 1 < p then .error "edge probability outside the unit interval"
  else
    let _wRange := if min_w > max_w then (max_w, min_w) else (min_w, max_w)
    .ok (((genPairs n.toNat directed).foldl (genStep p draws wdraws)
          (mkGraph n.toNat directed, 0, 0)).1)

-- ------------------------------------------------------------
-- Benchmark comparator
-- ------------------------------------------------------------

structure BenchmarkRecord where
  vertices : Nat
  edges : Nat
  algorithm : String
  time_ms : ℚ       -- wall-clock timing is not modelled; always recorded as 0
  ok : Bool
deriving DecidableEq, Repr

/-- The comparator's agreement check: equal sizes, and per vertex either
both distances are the `INF` sentinel or both are finite with absolute
difference at most `1e-6`. -/
def distVectorsAgree (d1 d2 : List (Option ℚ)) : Bool :=
  if d1.length = d2.length then
    (List.range d1.length).all fun i =>
      match d1.getD i none, d2.getD i none with
      | none, none => true
      | none, some _ => false
      | some _, none => false
      | some a, some b => decide (|a - b| ≤ 1 / 1000000)
  else false

/-- `compare_algorithms_on_graph`: run both algorithms from `source`, and
emit one record per algorithm.  The Dijkstra record's `ok` is "the result's
distance vector has entries"; the Bellman–Ford record's `ok` is "no negative
cycle flagged and the two distance vectors agree". -/
def compare_algorithms_on_graph (g : Graph) (source : Vertex) :
    List BenchmarkRecord :=
  let res_d := dijkstra g source
  let res_b := bellman_ford g source
  let same := distVectorsAgree res_d.dist res_b.dist
  [⟨g.vertex_count, g.edge_count, "Dijkstra", 0, decide (0 < res_d.dist.length)⟩,
   ⟨g.vertex_count, g.edge_count, "Bellman-Ford", 0,
     (!res_b.has_negative_cycle) && same⟩]

-- ------------------------------------------------------------
-- Concrete graphs used by the claims
-- ------------------------------------------------------------

/-- A 2-vertex undirected graph with the single undirected edge `{0, 1}` of
weight 1 (so adjacency entries `(0 → 1)` and `(1 → 0)` are both stored). -/
def undirectedPairGraph : Graph :=
  addEdgeD (mkGraph 2 false) 0 1 1

/-- The 3-vertex directed negative cycle `0→1 (w=1), 1→2 (w=-2), 2→0 (w=-1)`
of the spec's negative-cycle test. -/
def negCycleGraph : Graph :=
  addEdgeD (addEdgeD (addEdgeD (mkGraph 3 true) 0 1 1) 1 2 (-2)) 2 0 (-1)

/-- Fold a list of `(u, v, w)` insertions into a graph (the way the tests
and the spec's "insert `k` edges" scenario build graphs). -/
def insertEdges (g : Graph) (es : List (Vertex × Vertex × Weight)) : Graph :=
  es.foldl (fun h e => addEdgeD h e.1 e.2.1 e.2.2) g

/-- Two insertion triples describe the same undirected edge (same unordered
endpoint pair). -/
def sameUndirectedEdge (a b : Vertex × Vertex × Weight) : Prop :=
  (a.1 = b.1 ∧ a.2.1 = b.2.1) ∨ (a.1 = b.2.1 ∧ a.2.1 = b.1)

/-- Propositional form of the comparator's agreement check: equal lengths
and, per vertex, both distances infinite or both finite within `1e-6`. -/
def AgreeProp (d1 d2 : List (Option ℚ)) : Prop :=
  d1.length = d2.length ∧ ∀ i, i < d1.length →
    ((d1.getD i none = none ∧ d2.getD i none = none) ∨
     (∃ a b, d1.getD i none = some a ∧ d2.getD i none = some b ∧
       |a - b| ≤ 1 / 1000000))

-- ------------------------------------------------------------
-- Theorems
-- ------------------------------------------------------------

/-- C1.  Failing input for the claim that `dijkstra` and `bellman_ford`
always agree on non-negative-weight graphs: on the undirected 2-vertex graph
with the single weight-1 edge `{0, 1}` and source 1, `dijkstra` reaches
vertex 0 at distance 1 while `bellman_ford` leaves it at the infinite
sentinel (its edge list, truncated to `edge_count() = 1` entries, lost the
stored direction `1 → 0`), so the two classify vertex 0's reachability
differently and the comparator's own agreement check fails. -/
theorem dijkstra_bellmanFord_disagree_on_undirected :
    (dijkstra undirectedPairGraph 1).dist = [some 1, some 0]
  ∧ (bellman_ford undirectedPairGraph 1).dist = [none, some 0]
  ∧ distVectorsAgree (dijkstra undirectedPairGraph 1).dist
      (bellman_ford undirectedPairGraph 1).dist = false := by
  norm_num [dijkstra, dijkstraLoop, extractMin, dijkstraRelaxEdge,
    bellman_ford, bfMain, bfLoop, bfPass, bfRelaxEdge, bfCanRelax, Graph.bfEdges,
    distVectorsAgree, undirectedPairGraph, addEdgeD, mkGraph, Graph.add_edge, appendAt,
    dSet, dGet, finiteLt, Graph.totalEntries, Graph.edge_count, Graph.vertex_count,
    List.replicate_succ, List.set_cons_zero, List.set_cons_succ, List.range_succ,
    List.getD, List.take_succ_cons, List.getElem?_cons_zero, List.getElem?_cons_succ]

/-- C2.  Failing input for the claim that `bellman_ford`'s edge list holds
every directed adjacency entry: on the same undirected 2-vertex graph the
adjacency structure stores both `(0 → 1)` and `(1 → 0)`, but the list the
algorithm builds is sized by `edge_count()` — halved for undirected graphs —
so only `(0 → 1)` survives. -/
theorem bellmanFord_edge_list_drops_mirror_entries :
    undirectedPairGraph.bfEdges = [⟨0, 1, 1⟩]
  ∧ Edge.mk 0 1 ∈ undirectedPairGraph.neighbors 1
  ∧ BFEdge.mk 1 0 1 ∉ undirectedPairGraph.bfEdges := by
  norm_num [Graph.bfEdges, Graph.neighbors, undirectedPairGraph, addEdgeD, mkGraph,
    Graph.add_edge, appendAt, Graph.totalEntries, Graph.edge_count, Graph.vertex_count,
    List.replicate_succ, List.set_cons_zero, List.set_cons_succ, List.range_succ,
    List.getD, List.take_succ_cons, List.getElem?_cons_zero, List.getElem?_cons_succ]

/-- C4.  `dijkstra` never relaxes through a negative-weight edge: the inner
loop body leaves the whole state (distances, parents, queue) untouched on
such an edge, so scanning an adjacency list is the same as scanning only its
non-negative entries. -/
theorem dijkstra_skips_negative_edges (u : Vertex) :
    (∀ (st : DijkstraState) (e : Edge), e.weight < 0 → dijkstraRelaxEdge u st e = st)
  ∧ ∀ (l : List Edge) (st : DijkstraState),
      l.foldl (dijkstraRelaxEdge u) st
        = (l.filter fun e => decide (0 ≤ e.weight)).foldl (dijkstraRelaxEdge u) st := by
  have hskip : ∀ (st : DijkstraState) (e : Edge), e.weight < 0 →
      dijkstraRelaxEdge u st e = st := by
    intro st e h
    unfold dijkstraRelaxEdge
    rw [if_pos h]
  refine ⟨hskip, ?_⟩
  intro l
  induction l with
  | nil => intro st; rfl
  | cons e l ih =>
    intro st
    by_cases h : e.weight < 0
    · have hf : (decide (0 ≤ e.weight)) = false := by
        simp only [decide_eq_false_iff_not, not_le]; exact h
      simp only [List.foldl_cons, List.filter_cons, hf, if_false, hskip st e h]
      exact ih st
    · have hf : (decide (0 ≤ e.weight)) = true := by
        simp only [decide_eq_true_eq, not_lt] at h ⊢; exact h
      simp only [List.foldl_cons, List.filter_cons, hf, if_true]
      exact ih _

/-- Witness for C4 at a concrete state and edge of weight `-1`. -/
theorem dijkstra_skips_negative_edges_witness :
    dijkstraRelaxEdge 0 ⟨[some 0], [-1], [false], []⟩ ⟨0, -1⟩
      = ⟨[some 0], [-1], [false], []⟩ :=
  (dijkstra_skips_negative_edges 0).1 _ _ (by norm_num)

/-- C6.  `add_edge` with an endpoint outside `[0, n)` fails with the
out-of-range condition, and — the call returning only the error — no
adjacency list of the graph is modified. -/
theorem add_edge_out_of_range_fails (g : Graph) (u v : Vertex) (w : Weight)
    (h : u < 0 ∨ v < 0 ∨ (g.vertex_count : Int) ≤ u ∨ (g.vertex_count : Int) ≤ v) :
    g.add_edge u v w = .error "invalid vertex numbers"
  ∧ ∀ g', g.add_edge u v w ≠ Except.ok g' := by
  have h1 : g.add_edge u v w = .error "invalid vertex numbers" := by
    unfold Graph.add_edge
    rw [if_pos h]
  exact ⟨h1, fun g' hc => by rw [h1] at hc; cases hc⟩

/-- Witness for C6: inserting `(5, 0)` into a 1-vertex graph fails. -/
theorem add_edge_out_of_range_fails_witness :
    (mkGraph 1 true).add_edge 5 0 1 = .error "invalid vertex numbers" :=
  (add_edge_out_of_range_fails (mkGraph 1 true) 5 0 1 (by decide)).1

/-- C10.  For a source outside `[0, n)` both algorithms return normally the
size-`n` result with every distance at the infinite sentinel, every parent
at the none sentinel, and the negative-cycle flag down. -/
theorem algorithms_on_out_of_range_source (g : Graph) (s : Vertex)
    (h : s < 0 ∨ (g.vertex_count : Int) ≤ s) :
    (dijkstra g s).dist = List.replicate g.vertex_count none
  ∧ (dijkstra g s).parent = List.replicate g.vertex_count (-1)
  ∧ (dijkstra g s).has_negative_cycle = false
  ∧ (bellman_ford g s).dist = List.replicate g.vertex_count none
  ∧ (bellman_ford g s).parent = List.replicate g.vertex_count (-1)
  ∧ (bellman_ford g s).has_negative_cycle = false := by
  unfold dijkstra bellman_ford
  rw [if_pos h, if_pos h]
  exact ⟨rfl, rfl, rfl, rfl, rfl, rfl⟩

/-- Witness for C10 on a 2-vertex graph and the negative source `-3`. -/
theorem algorithms_on_out_of_range_source_witness :
    (dijkstra (mkGraph 2 true) (-3)).dist = List.replicate 2 none
  ∧ (bellman_ford (mkGraph 2 true) (-3)).has_negative_cycle = false :=
  ⟨(algorithms_on_out_of_range_source (mkGraph 2 true) (-3) (by decide)).1,
   (algorithms_on_out_of_range_source (mkGraph 2 true) (-3) (by decide)).2.2.2.2.2⟩

/-- C3.  For a valid source the negative-cycle flag is raised exactly when,
at the distances left by the main relaxation passes, some edge of the built
edge list can still be relaxed; on the directed 3-cycle
`0→1 (1), 1→2 (-2), 2→0 (-1)` sourced at 0 the flag is raised and the call
still returns the size-3 distance/parent vectors. -/
theorem bellmanFord_negative_cycle_flag (g : Graph) (s : Vertex)
    (h0 : 0 ≤ s) (h1 : s < (g.vertex_count : Int)) :
    ((bellman_ford g s).has_negative_cycle = true ↔
      ∃ e ∈ g.bfEdges, bfCanRelax (bfMain g s).1 e = true)
  ∧ (bellman_ford negCycleGraph 0).has_negative_cycle = true
  ∧ (bellman_ford negCycleGraph 0).dist.length = 3
  ∧ (bellman_ford negCycleGraph 0).parent.length = 3 := by
  refine ⟨?_, ?_, ?_, ?_⟩
  · have hno : ¬(s < 0 ∨ (g.vertex_count : Int) ≤ s) := by
      push_neg
      exact ⟨h0, h1⟩
    simp only [bellman_ford, if_neg hno]
    exact List.any_eq_true
  all_goals
    norm_num [bellman_ford, bfMain, bfLoop, bfPass, bfRelaxEdge, bfCanRelax, Graph.bfEdges,
      negCycleGraph, addEdgeD, mkGraph, Graph.add_edge, appendAt,
      dSet, dGet, finiteLt, Graph.totalEntries, Graph.edge_count, Graph.vertex_count,
      Int.toNat, List.getElem_cons_zero, List.getElem_cons_succ,
      List.replicate_succ, List.set_cons_zero, List.set_cons_succ, List.range_succ,
      List.getD, List.take_succ_cons, List.getElem?_cons_zero, List.getElem?_cons_succ]

/-- Witness for C3 at the 3-cycle graph and source 0. -/
theorem bellmanFord_negative_cycle_flag_witness :
    (bellman_ford negCycleGraph 0).has_negative_cycle = true :=
  (bellmanFord_negative_cycle_flag negCycleGraph 0 (by decide) (by decide)).2.1

/-- Shifting the backward parent walk by one step. -/
theorem walkSeq_shift (parent : List Vertex) (v : Vertex) (k : Nat) :
    walkSeq parent (parentStep parent v) k = walkSeq parent v (k + 1) := by
  induction k with
  | zero => rfl
  | succ k ih => simp only [walkSeq, ih]

/-- If the backward walk from `v` never meets `source`, the reconstruction
loop either runs out of fuel or returns an accumulator whose entries all
differ from `source`. -/
theorem restorePathLoop_avoids_source (parent : List Vertex) (source : Vertex) :
    ∀ (fuel : Nat) (v : Vertex) (rev : List Vertex),
      (∀ k, walkSeq parent v k ≠ source) → (∀ x ∈ rev, x ≠ source) →
      restorePathLoop parent source fuel v rev = none ∨
      ∃ r, restorePathLoop parent source fuel v rev = some r ∧ ∀ x ∈ r, x ≠ source := by
  intro fuel
  induction fuel with
  | zero => intro v rev _ _; exact Or.inl rfl
  | succ fuel ih =>
    intro v rev hw hr
    unfold restorePathLoop
    by_cases hv1 : v = -1
    · rw [if_pos hv1]
      exact Or.inr ⟨rev, rfl, hr⟩
    · have hvs : v ≠ source := hw 0
      rw [if_neg hv1, if_neg hvs]
      apply ih
      · intro k
        rw [walkSeq_shift]
        exact hw (k + 1)
      · intro x hx
        rcases List.mem_append.mp hx with h | h
        · exact hr x h
        · rw [List.mem_singleton.mp h]
          exact hvs

/-- A list all of whose entries differ from `s` cannot end in `s`. -/
theorem getLast?_ne_of_all_ne {l : List Vertex} {s : Vertex}
    (h : ∀ x ∈ l, x ≠ s) : l.getLast? ≠ some s := by
  intro hc
  have hmem : s ∈ l.getLast? := by rw [hc]; rfl
  obtain ⟨hne, heq⟩ := List.mem_getLast?_eq_getLast hmem
  exact h _ (heq ▸ List.getLast_mem hne) rfl

/-- C7 counterexample.  The claim promises `restore_path` returns
`[source]` whenever `target = source`, but for the empty parent array (a
0-vertex graph) with `source = target = 0` the out-of-range check wins and
the result is the empty path, not `[0]`. -/
theorem restore_path_self_out_of_range_ne :
    restore_path 0 0 ([] : List Vertex) ≠ [(0 : Vertex)] := by decide

/-- C7 as amended: an out-of-range target yields the empty path; a backward
walk that reaches the `-1` sentinel without ever meeting `source` yields the
empty path; and `target = source` yields the one-element path `[source]`
provided `target` lies inside `[0, n)`. -/
theorem restore_path_spec (source target : Vertex) (parent : List Vertex) :
    ((target < 0 ∨ (parent.length : Int) ≤ target) → restore_path source target parent = [])
  ∧ ((∃ k, walkSeq parent target k = -1) ∧ (∀ k, walkSeq parent target k ≠ source) →
      restore_path source target parent = [])
  ∧ (target = source → 0 ≤ target → target < (parent.length : Int) →
      restore_path source target parent = [source]) := by
  refine ⟨?_, ?_, ?_⟩
  · intro h
    simp only [restore_path]
    rw [if_pos h]
  · rintro ⟨-, havoid⟩
    simp only [restore_path]
    by_cases hr : target < 0 ∨ (parent.length : Int) ≤ target
    · rw [if_pos hr]
    · rw [if_neg hr]
      by_cases hpre : dGet parent target (-1) = -1 ∧ target ≠ source
      · rw [if_pos hpre]
      · rw [if_neg hpre]
        rcases restorePathLoop_avoids_source parent source (parent.length + 1) target []
            havoid (by intro x hx; cases hx) with hnone | ⟨r, hsome, hall⟩
        · rw [hnone]
        · rw [hsome]
          show (if r.length = 0 ∨ r.getLast? ≠ some source then [] else r.reverse) = []
          have hcond : r.length = 0 ∨ r.getLast? ≠ some source := by
            rcases Nat.eq_zero_or_pos r.length with h0 | hpos
            · exact Or.inl h0
            · exact Or.inr (getLast?_ne_of_all_ne hall)
          rw [if_pos hcond]
  · intro heq h0 hn
    have hno : ¬(target < 0 ∨ (parent.length : Int) ≤ target) := by
      push_neg
      exact ⟨h0, hn⟩
    have hne1 : target ≠ -1 := by
      intro hc
      rw [hc] at h0
      exact absurd h0 (by norm_num)
    simp only [restore_path]
    rw [if_neg hno, if_neg (by rintro ⟨-, hc⟩; exact hc heq)]
    show (match restorePathLoop parent source (parent.length + 1) target [] with
      | none => []
      | some rev => if rev.length = 0 ∨ rev.getLast? ≠ some source then [] else rev.reverse) = [source]
    rw [show restorePathLoop parent source (parent.length + 1) target []
        = some [target] from by
      unfold restorePathLoop
      rw [if_neg hne1, if_pos heq]
      simp]
    rw [heq]
    norm_num

/-- Witness for C7 (amended): a 1-entry parent array with
`source = target = 0`. -/
theorem restore_path_spec_witness :
    restore_path 0 0 [(-1 : Int)] = [(0 : Vertex)] :=
  (restore_path_spec 0 0 [-1]).2.2 rfl (by norm_num) (by norm_num)

/-- `appendAt` preserves the number of adjacency lists. -/
theorem appendAt_length (adj : List (List Edge)) (i : Nat) (e : Edge) :
    (appendAt adj i e).length = adj.length := by
  simp [appendAt]

/-- Appending one entry into an in-range list grows the entry total by 1. -/
theorem appendAt_sum (adj : List (List Edge)) (i : Nat) (e : Edge) (h : i < adj.length) :
    ((appendAt adj i e).map List.length).sum = ((adj.map List.length).sum) + 1 := by
  induction adj generalizing i with
  | nil => cases h
  | cons a as ih =>
    cases i with
    | zero =>
      simp [appendAt]
      omega
    | succ i =>
      have h' : i < as.length := by simpa using h
      have : appendAt (a :: as) (i + 1) e = a :: appendAt as i e := by
        simp [appendAt]
      rw [this]
      simp only [List.map_cons, List.sum_cons, ih i h']
      omega

/-- Reading back the list `appendAt` extended. -/
theorem appendAt_getD_self (adj : List (List Edge)) (i : Nat) (e : Edge)
    (h : i < adj.length) :
    (appendAt adj i e).getD i [] = adj.getD i [] ++ [e] := by
  induction adj generalizing i with
  | nil => cases h
  | cons a as ih =>
    cases i with
    | zero => simp [appendAt]
    | succ i =>
      have h' : i < as.length := by simpa using h
      have : appendAt (a :: as) (i + 1) e = a :: appendAt as i e := by
        simp [appendAt]
      rw [this]
      simpa using ih i h'

/-- Reading any other list is unaffected by `appendAt`. -/
theorem appendAt_getD_ne (adj : List (List Edge)) (i j : Nat) (e : Edge)
    (h : j ≠ i) :
    (appendAt adj i e).getD j [] = adj.getD j [] := by
  induction adj generalizing i j with
  | nil => simp [appendAt]
  | cons a as ih =>
    cases i with
    | zero =>
      cases j with
      | zero => exact absurd rfl h
      | succ j => simp [appendAt]
    | succ i =>
      have : appendAt (a :: as) (i + 1) e = a :: appendAt as i e := by
        simp [appendAt]
      rw [this]
      cases j with
      | zero => simp
      | succ j =>
        have h' : j ≠ i := by omega
        simpa using ih i j h'

/-- `add_edge` on in-range endpoints succeeds and returns the graph with
the appended entry (and the mirror entry in the undirected non-loop case). -/
theorem add_edge_ok (g : Graph) (u v : Int) (w : Weight)
    (hu0 : (0:Int) ≤ u) (hun : u < (g.vertex_count : Int))
    (hv0 : (0:Int) ≤ v) (hvn : v < (g.vertex_count : Int)) :
    g.add_edge u v w = .ok ⟨g.directed,
      if ¬g.directed = true ∧ u ≠ v
      then appendAt (appendAt g.adj u.toNat ⟨v, w⟩) v.toNat ⟨u, w⟩
      else appendAt g.adj u.toNat ⟨v, w⟩⟩ := by
  unfold Graph.add_edge
  rw [if_neg (by push_neg; exact ⟨hu0, hv0, hun, hvn⟩)]

/-- A valid undirected non-loop insertion adds exactly two directed
entries and keeps the flag and the vertex count. -/
theorem addEdgeD_undirected (g : Graph) (u v : Int) (w : Weight)
    (hdir : g.directed = false) (hu0 : (0:Int) ≤ u) (hun : u < (g.vertex_count : Int))
    (hv0 : (0:Int) ≤ v) (hvn : v < (g.vertex_count : Int)) (huv : u ≠ v) :
    addEdgeD g u v w
      = ⟨g.directed, appendAt (appendAt g.adj u.toNat ⟨v, w⟩) v.toNat ⟨u, w⟩⟩
    ∧ (addEdgeD g u v w).directed = false
    ∧ (addEdgeD g u v w).vertex_count = g.vertex_count
    ∧ (addEdgeD g u v w).totalEntries = g.totalEntries + 2 := by
  have hcond : (¬g.directed = true ∧ u ≠ v) := by
    rw [hdir]
    exact ⟨Bool.false_ne_true, huv⟩
  have he : addEdgeD g u v w
      = ⟨g.directed, appendAt (appendAt g.adj u.toNat ⟨v, w⟩) v.toNat ⟨u, w⟩⟩ := by
    unfold addEdgeD
    rw [add_edge_ok g u v w hu0 hun hv0 hvn, if_pos hcond]
  have hulen : u.toNat < g.adj.length := by
    have : u < (g.adj.length : Int) := hun
    omega
  have hvlen : v.toNat < (appendAt g.adj u.toNat ⟨v, w⟩).length := by
    rw [appendAt_length]
    have : v < (g.adj.length : Int) := hvn
    omega
  refine ⟨he, by rw [he, hdir], ?_, ?_⟩
  · show (addEdgeD g u v w).adj.length = g.adj.length
    rw [he]
    show (appendAt (appendAt g.adj u.toNat ⟨v, w⟩) v.toNat ⟨u, w⟩).length = g.adj.length
    rw [appendAt_length, appendAt_length]
  · show ((addEdgeD g u v w).adj.map List.length).sum = (g.adj.map List.length).sum + 2
    rw [he]
    show ((appendAt (appendAt g.adj u.toNat ⟨v, w⟩) v.toNat ⟨u, w⟩).map List.length).sum
      = (g.adj.map List.length).sum + 2
    rw [appendAt_sum _ _ _ hvlen, appendAt_sum _ _ _ hulen]

/-- Inserting a list of valid undirected non-loop edges adds two directed
entries per insertion. -/
theorem insertEdges_undirected_total (es : List (Vertex × Vertex × Weight)) :
    ∀ (g : Graph), g.directed = false →
      (∀ e ∈ es, (0:Int) ≤ e.1 ∧ e.1 < (g.vertex_count : Int) ∧
        (0:Int) ≤ e.2.1 ∧ e.2.1 < (g.vertex_count : Int) ∧ e.1 ≠ e.2.1) →
      (insertEdges g es).directed = false
      ∧ (insertEdges g es).vertex_count = g.vertex_count
      ∧ (insertEdges g es).totalEntries = g.totalEntries + 2 * es.length := by
  induction es with
  | nil =>
    intro g hdir _
    exact ⟨hdir, rfl, by simp [insertEdges]⟩
  | cons e es ih =>
    intro g hdir hval
    obtain ⟨h1, h2, h3, h4, h5⟩ := hval e (List.mem_cons_self e es)
    obtain ⟨heq, hdir', hvc, htot⟩ := addEdgeD_undirected g e.1 e.2.1 e.2.2 hdir h1 h2 h3 h4 h5
    have hstep : insertEdges g (e :: es) = insertEdges (addEdgeD g e.1 e.2.1 e.2.2) es := rfl
    obtain ⟨ha, hb, hc⟩ := ih (addEdgeD g e.1 e.2.1 e.2.2) hdir'
      (by
        intro e' he'
        rw [hvc]
        exact hval e' (List.mem_cons_of_mem e he'))
    rw [hstep]
    refine ⟨ha, by rw [hb, hvc], ?_⟩
    rw [hc, htot, List.length_cons]
    ring

/-- The freshly constructed graph: requested flag, `n` vertices, no entries. -/
theorem mkGraph_facts (n : Nat) (d : Bool) :
    (mkGraph n d).directed = d ∧ (mkGraph n d).vertex_count = n
    ∧ (mkGraph n d).totalEntries = 0 := by
  refine ⟨rfl, by simp [mkGraph, Graph.vertex_count], ?_⟩
  show ((mkGraph n d).adj.map List.length).sum = 0
  simp [mkGraph]

/-- C5.  On an undirected graph a valid `add_edge(u,v,w)` with `u ≠ v`
appends `(v,w)` to `u`'s list and the mirror `(u,w)` to `v`'s list (leaving
every other list unchanged, two new directed entries); `add_edge(u,u,w)`
appends a single entry; and inserting `k` distinct valid undirected
non-loop edges into a fresh undirected graph makes `edge_count()` report
exactly `k`. -/
theorem undirected_add_edge_mirror_and_count (g : Graph) (u v : Int) (w : Weight)
    (n : Nat) (es : List (Vertex × Vertex × Weight)) :
    (g.directed = false → (0:Int) ≤ u → u < (g.vertex_count : Int) →
     (0:Int) ≤ v → v < (g.vertex_count : Int) → u ≠ v →
      ∃ g', g.add_edge u v w = .ok g'
        ∧ g'.adj.getD u.toNat [] = g.adj.getD u.toNat [] ++ [⟨v, w⟩]
        ∧ g'.adj.getD v.toNat [] = g.adj.getD v.toNat [] ++ [⟨u, w⟩]
        ∧ (∀ i : Nat, i ≠ u.toNat → i ≠ v.toNat → g'.adj.getD i [] = g.adj.getD i [])
        ∧ g'.totalEntries = g.totalEntries + 2)
  ∧ (g.directed = false → (0:Int) ≤ u → u < (g.vertex_count : Int) →
      ∃ g', g.add_edge u u w = .ok g'
        ∧ g'.adj.getD u.toNat [] = g.adj.getD u.toNat [] ++ [⟨u, w⟩]
        ∧ (∀ i : Nat, i ≠ u.toNat → g'.adj.getD i [] = g.adj.getD i [])
        ∧ g'.totalEntries = g.totalEntries + 1)
  ∧ ((∀ e ∈ es, (0:Int) ≤ e.1 ∧ e.1 < (n : Int) ∧ (0:Int) ≤ e.2.1 ∧
        e.2.1 < (n : Int) ∧ e.1 ≠ e.2.1) →
      es.Pairwise (fun a b => ¬ sameUndirectedEdge a b) →
      (insertEdges (mkGraph n false) es).edge_count = es.length) := by
  refine ⟨?_, ?_, ?_⟩
  · intro hdir hu0 hun hv0 hvn huv
    have hcond : (¬g.directed = true ∧ u ≠ v) := by
      rw [hdir]
      exact ⟨Bool.false_ne_true, huv⟩
    have hulen : u.toNat < g.adj.length := by
      have : u < (g.adj.length : Int) := hun
      omega
    have hvlen : v.toNat < g.adj.length := by
      have : v < (g.adj.length : Int) := hvn
      omega
    have hne : u.toNat ≠ v.toNat := by omega
    refine ⟨⟨g.directed, appendAt (appendAt g.adj u.toNat ⟨v, w⟩) v.toNat ⟨u, w⟩⟩,
      by rw [add_edge_ok g u v w hu0 hun hv0 hvn, if_pos hcond], ?_, ?_, ?_, ?_⟩
    · show (appendAt (appendAt g.adj u.toNat ⟨v, w⟩) v.toNat ⟨u, w⟩).getD u.toNat []
        = g.adj.getD u.toNat [] ++ [Edge.mk v w]
      rw [appendAt_getD_ne _ _ _ _ hne, appendAt_getD_self _ _ _ hulen]
    · show (appendAt (appendAt g.adj u.toNat ⟨v, w⟩) v.toNat ⟨u, w⟩).getD v.toNat []
        = g.adj.getD v.toNat [] ++ [Edge.mk u w]
      rw [appendAt_getD_self _ _ _ (by rw [appendAt_length]; exact hvlen),
        appendAt_getD_ne _ _ _ _ (Ne.symm hne)]
    · intro i hiu hiv
      show (appendAt (appendAt g.adj u.toNat ⟨v, w⟩) v.toNat ⟨u, w⟩).getD i []
        = g.adj.getD i []
      rw [appendAt_getD_ne _ _ _ _ hiv, appendAt_getD_ne _ _ _ _ hiu]
    · show ((appendAt (appendAt g.adj u.toNat ⟨v, w⟩) v.toNat ⟨u, w⟩).map List.length).sum
        = (g.adj.map List.length).sum + 2
      rw [appendAt_sum _ _ _ (by rw [appendAt_length]; exact hvlen),
        appendAt_sum _ _ _ hulen]
  · intro hdir hu0 hun
    have hulen : u.toNat < g.adj.length := by
      have : u < (g.adj.length : Int) := hun
      omega
    refine ⟨⟨g.directed, appendAt g.adj u.toNat ⟨u, w⟩⟩,
      by rw [add_edge_ok g u u w hu0 hun hu0 hun,
        if_neg (by rintro ⟨-, hc⟩; exact hc rfl)], ?_, ?_, ?_⟩
    · show (appendAt g.adj u.toNat ⟨u, w⟩).getD u.toNat []
        = g.adj.getD u.toNat [] ++ [Edge.mk u w]
      exact appendAt_getD_self _ _ _ hulen
    · intro i hiu
      show (appendAt g.adj u.toNat ⟨u, w⟩).getD i [] = g.adj.getD i []
      exact appendAt_getD_ne _ _ _ _ hiu
    · exact appendAt_sum _ _ _ hulen
  · intro hval _
    obtain ⟨hmkd, hmkn, hmkt⟩ := mkGraph_facts n false
    obtain ⟨ha, hb, hc⟩ := insertEdges_undirected_total es (mkGraph n false) hmkd
      (by rw [hmkn]; exact hval)
    unfold Graph.edge_count
    rw [if_neg (by rw [ha]; exact Bool.false_ne_true), hc, hmkt]
    omega

/-- Witness for C5: inserting the single undirected edge `(0, 1, 1)` into a
fresh 2-vertex undirected graph yields `edge_count() = 1`. -/
theorem undirected_add_edge_mirror_and_count_witness :
    (insertEdges (mkGraph 2 false) [(0, 1, 1)]).edge_count = 1 :=
  (undirected_add_edge_mirror_and_count (mkGraph 2 false) 0 1 1 2 [(0, 1, 1)]).2.2
    (by
      intro e he
      rw [List.mem_singleton.mp he]
      norm_num)
    (List.pairwise_singleton _ _)

/-- The comparator's boolean agreement check holds exactly when the
propositional agreement predicate does. -/
theorem distVectorsAgree_iff (d1 d2 : List (Option ℚ)) :
    distVectorsAgree d1 d2 = true ↔ AgreeProp d1 d2 := by
  unfold distVectorsAgree AgreeProp
  by_cases hlen : d1.length = d2.length
  · rw [if_pos hlen]
    simp only [List.all_eq_true, List.mem_range]
    constructor
    · intro h
      refine ⟨hlen, fun i hi => ?_⟩
      have hh := h i hi
      cases h1 : d1.getD i none with
      | none =>
        cases h2 : d2.getD i none with
        | none => exact Or.inl ⟨rfl, rfl⟩
        | some b => rw [h1, h2] at hh; cases hh
      | some a =>
        cases h2 : d2.getD i none with
        | none => rw [h1, h2] at hh; cases hh
        | some b =>
          rw [h1, h2] at hh
          exact Or.inr ⟨a, b, rfl, rfl, of_decide_eq_true hh⟩
    · rintro ⟨-, hp⟩ i hi
      rcases hp i hi with ⟨ha, hb⟩ | ⟨a, b, ha, hb, hab⟩
      · rw [ha, hb]
      · rw [ha, hb]
        exact decide_eq_true hab
  · rw [if_neg hlen]
    constructor
    · intro h; cases h
    · rintro ⟨hc, -⟩; exact absurd hc hlen

/-- C8.  The comparator emits exactly one record per algorithm; the
Dijkstra record's `ok` holds exactly when the Dijkstra distance vector is
non-empty, and the Bellman–Ford record's `ok` holds exactly when no
negative cycle was flagged and the two distance vectors agree (same length,
per vertex both infinite or both finite within `1e-6`). -/
theorem comparator_one_record_per_algorithm (g : Graph) (s : Vertex) :
    (compare_algorithms_on_graph g s).length = 2
  ∧ ((compare_algorithms_on_graph g s).getD 0 ⟨0, 0, "", 0, false⟩).algorithm = "Dijkstra"
  ∧ ((compare_algorithms_on_graph g s).getD 1 ⟨0, 0, "", 0, false⟩).algorithm = "Bellman-Ford"
  ∧ (((compare_algorithms_on_graph g s).getD 0 ⟨0, 0, "", 0, false⟩).ok = true ↔
      (dijkstra g s).dist ≠ [])
  ∧ (((compare_algorithms_on_graph g s).getD 1 ⟨0, 0, "", 0, false⟩).ok = true ↔
      ((bellman_ford g s).has_negative_cycle = false
        ∧ AgreeProp (dijkstra g s).dist (bellman_ford g s).dist)) := by
  refine ⟨rfl, rfl, rfl, ?_, ?_⟩
  · show (decide (0 < (dijkstra g s).dist.length) = true) ↔ (dijkstra g s).dist ≠ []
    rw [decide_eq_true_eq]
    exact ⟨fun h => List.ne_nil_of_length_pos h, fun h => List.length_pos_of_ne_nil h⟩
  · show ((!(bellman_ford g s).has_negative_cycle)
        && distVectorsAgree (dijkstra g s).dist (bellman_ford g s).dist) = true ↔ _
    rw [Bool.and_eq_true, Bool.not_eq_true', distVectorsAgree_iff]

/-- Witness for C8 on a concrete 1-vertex graph. -/
theorem comparator_one_record_per_algorithm_witness :
    (compare_algorithms_on_graph (mkGraph 1 true) 0).length = 2 :=
  (comparator_one_record_per_algorithm (mkGraph 1 true) 0).1

/-- When no probability draw passes the threshold, the generation fold
leaves the graph untouched. -/
theorem genFold_no_edges (p : ℚ) (draws wdraws : Nat → ℚ)
    (hp : ∀ k, ¬ draws k ≤ p) :
    ∀ (pairs : List (Nat × Nat)) (g : Graph) (pc wc : Nat),
      (pairs.foldl (genStep p draws wdraws) (g, pc, wc)).1 = g := by
  intro pairs
  induction pairs with
  | nil => intro g pc wc; rfl
  | cons uv pairs ih =>
    intro g pc wc
    show (pairs.foldl (genStep p draws wdraws) (genStep p draws wdraws (g, pc, wc) uv)).1 = g
    rw [show genStep p draws wdraws (g, pc, wc) uv = (g, pc + 1, wc) from by
      unfold genStep
      rw [if_neg (hp pc)]]
    exact ih g (pc + 1) wc

/-- Every pair the undirected generator considers has in-range distinct
endpoints with `u < v`. -/
theorem genPairs_undirected_mem (n : Nat) (uv : Nat × Nat)
    (h : uv ∈ genPairs n false) : uv.1 < n ∧ uv.2 < n ∧ uv.1 < uv.2 := by
  unfold genPairs at h
  simp only [List.mem_flatten, List.mem_map, List.mem_filter, List.mem_range] at h
  obtain ⟨l, ⟨u, hu, rfl⟩, hv⟩ := h
  simp only [List.mem_map, List.mem_filter, List.mem_range] at hv
  obtain ⟨v, ⟨hvn, hcond⟩, rfl⟩ := hv
  refine ⟨hu, hvn, ?_⟩
  simp only [Bool.not_eq_true', Bool.or_eq_false_iff, Bool.and_eq_false_iff,
    decide_eq_false_iff_not] at hcond
  rcases hcond with ⟨h1 | h1, h2⟩
  · exact absurd h1 (by simp)
  · omega

/-- When every probability draw passes the threshold `1`, each considered
pair inserts one undirected edge (two directed entries). -/
theorem genFold_all_edges (draws wdraws : Nat → ℚ) (hd : ∀ k, draws k ≤ 1) (n : Nat) :
    ∀ (pairs : List (Nat × Nat)), (∀ uv ∈ pairs, uv.1 < n ∧ uv.2 < n ∧ uv.1 ≠ uv.2) →
    ∀ (g : Graph), g.directed = false → g.vertex_count = n →
    ∀ (pc wc : Nat),
      ((pairs.foldl (genStep 1 draws wdraws) (g, pc, wc)).1.totalEntries
          = g.totalEntries + 2 * pairs.length)
      ∧ (pairs.foldl (genStep 1 draws wdraws) (g, pc, wc)).1.directed = false
      ∧ (pairs.foldl (genStep 1 draws wdraws) (g, pc, wc)).1.vertex_count = n := by
  intro pairs
  induction pairs with
  | nil =>
    intro _ g hdir hvc pc wc
    exact ⟨by simp, hdir, hvc⟩
  | cons uv pairs ih =>
    intro hval g hdir hvc pc wc
    obtain ⟨h1, h2, h3⟩ := hval uv (List.mem_cons_self uv pairs)
    have hu0 : (0:Int) ≤ (uv.1 : Int) := Int.natCast_nonneg _
    have hv0 : (0:Int) ≤ (uv.2 : Int) := Int.natCast_nonneg _
    have hun : (uv.1 : Int) < (g.vertex_count : Int) := by
      rw [hvc]; exact_mod_cast h1
    have hvn : (uv.2 : Int) < (g.vertex_count : Int) := by
      rw [hvc]; exact_mod_cast h2
    have huv : (uv.1 : Int) ≠ (uv.2 : Int) := by exact_mod_cast h3
    obtain ⟨-, hdir', hvc', htot⟩ :=
      addEdgeD_undirected g uv.1 uv.2 (wdraws wc) hdir hu0 hun hv0 hvn huv
    have hstep : genStep 1 draws wdraws (g, pc, wc) uv
        = (addEdgeD g (uv.1 : Int) (uv.2 : Int) (wdraws wc), pc + 1, wc + 1) := by
      unfold genStep
      rw [if_pos (hd pc)]
    simp only [List.foldl_cons, hstep]
    obtain ⟨ha, hb, hc⟩ := ih
      (fun uv' h' => hval uv' (List.mem_cons_of_mem uv h'))
      (addEdgeD g uv.1 uv.2 (wdraws wc)) hdir' (by rw [hvc', hvc])
      (pc + 1) (wc + 1)
    refine ⟨?_, hb, hc⟩
    rw [ha, htot, List.length_cons]
    ring

/-- Counting the elements of `0 .. n-1` above `u`. -/
theorem filter_gt_length (u n : Nat) :
    ((List.range n).filter fun v => decide (u < v)).length = n - (u + 1) := by
  induction n with
  | zero => simp
  | succ n ih =>
    rw [List.range_succ, List.filter_append, List.length_append, ih]
    by_cases h : u < n
    · simp [h]
      omega
    · simp [h]
      omega

/-- The undirected generator's skip condition keeps exactly the pairs with
`u < v`. -/
theorem genPairs_undirected_pred (n u : Nat) :
    ((List.range n).filter fun v => !((!false && decide (v ≤ u)) || decide (u = v)))
      = (List.range n).filter fun v => decide (u < v) := by
  apply List.filter_congr
  intro v _
  simp only [Bool.not_false, Bool.true_and]
  rw [show (decide (v ≤ u) || decide (u = v)) = decide (v ≤ u ∨ u = v) from
    (Bool.decide_or _ _).symm, ← decide_not]
  exact decide_eq_decide.mpr (by omega)

/-- The undirected generator considers `n(n-1)/2` pairs. -/
theorem genPairs_undirected_length (n : Nat) :
    2 * (genPairs n false).length = n * (n - 1) := by
  unfold genPairs
  rw [List.length_flatten, List.map_map]
  have hmap : (List.range n).map
      (List.length ∘ fun u =>
        ((List.range n).filter fun v => !((!false && decide (v ≤ u)) || decide (u = v))).map
          fun v => (u, v))
      = (List.range n).map fun u => n - 1 - u := by
    apply List.map_congr_left
    intro u _
    show (((List.range n).filter fun v => !((!false && decide (v ≤ u)) || decide (u = v))).map
      fun v => (u, v)).length = n - 1 - u
    rw [List.length_map, genPairs_undirected_pred, filter_gt_length]
    omega
  rw [hmap]
  have hfin : (((List.range n).map fun u => n - 1 - u)).sum
      = ∑ j in Finset.range n, (n - 1 - j) := rfl
  rw [hfin, Finset.sum_range_reflect (fun j => j) n]
  have := Finset.sum_range_id_mul_two n
  omega

/-- A graph without adjacency entries reports zero edges. -/
theorem edge_count_of_zero_total (g : Graph) (h : g.totalEntries = 0) :
    g.edge_count = 0 := by
  unfold Graph.edge_count
  rw [h]
  cases g.directed <;> simp

/-- C9 as amended: with edge probability 0 the generator adds no edge as
long as no probability draw is exactly 0 (the C++ test `prob <= 0` accepts a
drawn 0.0); with edge probability 1 on an undirected graph every considered
pair is inserted, giving exactly `n(n-1)/2` undirected edges, since every
draw of `uniform_real_distribution(0,1)` lies in `[0,1)`. -/
theorem generate_extreme_probabilities (n : Nat) (minw maxw : ℚ) (dir : Bool)
    (draws wdraws : Nat → ℚ) :
    ((∀ k, 0 < draws k) →
      (generate_random_graph (n : Int) 0 minw maxw dir draws wdraws).map Graph.edge_count
        = Except.ok 0)
  ∧ ((∀ k, draws k < 1) →
      (generate_random_graph (n : Int) 1 minw maxw false draws wdraws).map Graph.edge_count
        = Except.ok (n * (n - 1) / 2)) := by
  constructor
  · intro hpos
    unfold generate_random_graph
    rw [if_neg (not_lt.mpr (Int.natCast_nonneg n)), if_neg (by norm_num)]
    have h0 : (generate_random_graph (n : Int) 0 minw maxw dir draws wdraws) =
      (generate_random_graph (n : Int) 0 minw maxw dir draws wdraws) := rfl
    show Except.map Graph.edge_count (Except.ok
      (((genPairs ((n : Int)).toNat dir).foldl (genStep 0 draws wdraws)
        (mkGraph ((n : Int)).toNat dir, 0, 0)).1)) = Except.ok 0
    rw [genFold_no_edges 0 draws wdraws (fun k => not_le.mpr (hpos k)) _ _ 0 0]
    show Except.ok ((mkGraph ((n : Int)).toNat dir).edge_count) = Except.ok 0
    rw [edge_count_of_zero_total _ (mkGraph_facts _ dir).2.2]
  · intro hlt
    unfold generate_random_graph
    rw [if_neg (not_lt.mpr (Int.natCast_nonneg n)), if_neg (by norm_num)]
    have htn : ((n : Int)).toNat = n := by simp
    show Except.map Graph.edge_count (Except.ok
      (((genPairs ((n : Int)).toNat false).foldl (genStep 1 draws wdraws)
        (mkGraph ((n : Int)).toNat false, 0, 0)).1)) = Except.ok (n * (n - 1) / 2)
    rw [htn]
    have hmem : ∀ uv ∈ genPairs n false, uv.1 < n ∧ uv.2 < n ∧ uv.1 ≠ uv.2 := by
      intro uv h
      obtain ⟨h1, h2, h3⟩ := genPairs_undirected_mem n uv h
      exact ⟨h1, h2, by omega⟩
    obtain ⟨htot, -, -⟩ := genFold_all_edges draws wdraws
      (fun k => le_of_lt (hlt k)) n (genPairs n false) hmem
      (mkGraph n false) rfl (mkGraph_facts n false).2.1 0 0
    show Except.ok (((genPairs n false).foldl (genStep 1 draws wdraws)
        (mkGraph n false, 0, 0)).1.edge_count) = Except.ok (n * (n - 1) / 2)
    have hdirf : ((genPairs n false).foldl (genStep 1 draws wdraws)
        (mkGraph n false, 0, 0)).1.directed = false :=
      (genFold_all_edges draws wdraws (fun k => le_of_lt (hlt k)) n (genPairs n false) hmem
        (mkGraph n false) rfl (mkGraph_facts n false).2.1 0 0).2.1
    unfold Graph.edge_count
    have hfinal : ((mkGraph n false).totalEntries + 2 * (genPairs n false).length) / 2
        = n * (n - 1) / 2 := by
      rw [(mkGraph_facts n false).2.2]
      have hlen := genPairs_undirected_length n
      generalize hM : n * (n - 1) = M at hlen ⊢
      omega
    rw [if_neg (by rw [hdirf]; exact Bool.false_ne_true), htot, hfinal]

/-- C9 counterexample.  The generator's test is `prob_dist(gen) <= p`, and
`uniform_real_distribution(0.0, 1.0)` can produce exactly `0.0`; with edge
probability 0 and all probability draws equal to 0 every considered pair is
inserted: on 2 vertices (directed) the result has 2 edges, not 0 as the
claim promises for "any random draws". -/
theorem generate_p0_zero_draw_produces_edges :
    (generate_random_graph 2 0 1 10 true (fun _ => 0) (fun _ => 1)).map Graph.edge_count
      = Except.ok 2
  ∧ (generate_random_graph 2 0 1 10 true (fun _ => 0) (fun _ => 1)).map Graph.edge_count
      ≠ Except.ok 0 := by
  have h : (generate_random_graph 2 0 1 10 true (fun _ => 0) (fun _ => 1)).map Graph.edge_count
      = Except.ok 2 := by
    norm_num [generate_random_graph, genPairs, genStep, addEdgeD, mkGraph, Graph.add_edge,
      appendAt, Graph.totalEntries, Graph.edge_count, Graph.vertex_count, Int.toNat,
      List.replicate_succ, List.set_cons_zero, List.set_cons_succ, List.range_succ,
      List.getD, Except.map]
  refine ⟨h, by rw [h]; simp⟩

/-- Witness for C9 (amended): probability-1 generation on 3 vertices with
all probability draws `1/2` yields exactly `3 = 3*2/2` undirected edges. -/
theorem generate_extreme_probabilities_witness :
    (generate_random_graph (3 : Int) 1 1 10 false (fun _ => 1/2) (fun _ => 1)).map
      Graph.edge_count = Except.ok 3 :=
  (generate_extreme_probabilities 3 1 10 true (fun _ => 1/2) (fun _ => 1)).2
    (fun _ => by norm_num)
